import Mathlib

set_option maxHeartbeats 1000000

namespace MRC20

/-! # Byte-level 256-bit arithmetic

Translated from the `U256` implementation in
`src/contracts/erc20-token/src/lib.rs`.  A value is 32 bytes in
little-endian order (index 0 = least significant); here a byte array is a
`List Nat` whose entries are below 256. -/

/-- Little-endian numeric value of a byte list. -/
def val : List Nat → Nat
  | [] => 0
  | b :: bs => b + 256 * val bs

/-- Every entry of the list is a byte (`u8`). -/
def validBytes (l : List Nat) : Prop := ∀ b ∈ l, b < 256

instance : DecidablePred validBytes := fun l => List.decidableBAll _ l

/-- A well-formed 32-byte `u256` representation. -/
def valid32 (l : List Nat) : Prop := l.length = 32 ∧ validBytes l

instance (l : List Nat) : Decidable (valid32 l) := instDecidableAnd

/-- `U256::ZERO`. -/
def zero32 : List Nat := List.replicate 32 0

/-- `U256::MAX`. -/
def max32 : List Nat := List.replicate 32 255

/-- The `n` little-endian bytes of a value (`u64::to_le_bytes`). -/
def natToLE : Nat → Nat → List Nat
  | 0, _ => []
  | n + 1, v => v % 256 :: natToLE n (v / 256)

/-- `U256::from_u64`: 8 little-endian bytes in the low positions, the 24
high bytes zero. -/
def from_u64 (v : Nat) : List Nat := natToLE 8 v ++ List.replicate 24 0

/-- The carry loop of `U256::checked_add`: byte-wise sum with carry, least
significant byte first; yields the result bytes and the final carry. -/
def addBytes : List Nat → List Nat → Nat → List Nat × Nat
  | a :: ta, b :: tb, c =>
    let s := a + b + c
    let r := addBytes ta tb (s / 256)
    (s % 256 :: r.1, r.2)
  | _, _, c => ([], c)

/-- `U256::checked_add`: `none` when the final carry is nonzero. -/
def checked_add (a b : List Nat) : Option (List Nat) :=
  let r := addBytes a b 0
  if r.2 ≠ 0 then none else some r.1

/-- The borrow loop of `U256::checked_sub`: byte-wise difference with
borrow, least significant byte first; yields the result bytes and the
final borrow.  The source computes `diff = a[i] - b[i] - borrow` in `i16`
and adds 256 back when it is negative. -/
def subBytes : List Nat → List Nat → Nat → List Nat × Nat
  | a :: ta, b :: tb, brw =>
    if a < b + brw then
      let r := subBytes ta tb 1
      ((a + 256 - (b + brw)) :: r.1, r.2)
    else
      let r := subBytes ta tb 0
      ((a - (b + brw)) :: r.1, r.2)
  | _, _, brw => ([], brw)

/-- Lexicographic comparison of big-endian byte lists: `Ord for U256`
walks `i` from 31 down to 0, i.e. most significant byte first, the first
unequal pair deciding. -/
def cmpBytes : List Nat → List Nat → Ordering
  | a :: ta, b :: tb =>
    match compare a b with
    | .eq => cmpBytes ta tb
    | o => o
  | _, _ => .eq

/-- `Ord::cmp` for `U256`: most-significant-first comparison over the
little-endian representation. -/
def ucmp (a b : List Nat) : Ordering := cmpBytes a.reverse b.reverse

/-- `U256::checked_sub`: `none` when `self < other` (decided by `Ord`),
otherwise the borrow-loop result (its final borrow is discarded). -/
def checked_sub (a b : List Nat) : Option (List Nat) :=
  if ucmp a b = .lt then none else some (subBytes a b 0).1

/-! ## Facts about the numeric value map -/

theorem val_append (l m : List Nat) :
    val (l ++ m) = val l + 256 ^ l.length * val m := by
  induction l with
  | nil => simp [val]
  | cons b t ih =>
    show b + 256 * val (t ++ m) = (b + 256 * val t) + 256 ^ (t.length + 1) * val m
    rw [ih, pow_succ]
    ring

theorem val_lt (l : List Nat) (h : validBytes l) : val l < 256 ^ l.length := by
  induction l with
  | nil => simp [val]
  | cons b t ih =>
    have hb : b < 256 := h b (List.mem_cons_self b t)
    have ht : val t < 256 ^ t.length := ih (fun x hx => h x (List.mem_cons_of_mem _ hx))
    simp only [val, List.length_cons, pow_succ]
    calc b + 256 * val t < 256 + 256 * val t := by omega
      _ = 256 * (val t + 1) := by ring
      _ ≤ 256 * 256 ^ t.length := by
          exact Nat.mul_le_mul_left 256 ht
      _ = 256 ^ t.length * 256 := by ring

theorem val_replicate_zero (n : Nat) : val (List.replicate n 0) = 0 := by
  induction n with
  | zero => rfl
  | succ k ih => simp [List.replicate, val, ih]

theorem val_zero32 : val zero32 = 0 := val_replicate_zero 32

theorem val_inj (a b : List Nat) (ha : validBytes a) (hb : validBytes b)
    (hl : a.length = b.length) (hv : val a = val b) : a = b := by
  induction a generalizing b with
  | nil => cases b with
    | nil => rfl
    | cons y tb => simp at hl
  | cons x ta ih =>
    cases b with
    | nil => simp at hl
    | cons y tb =>
      have hx : x < 256 := ha x (List.mem_cons_self _ _)
      have hy : y < 256 := hb y (List.mem_cons_self _ _)
      simp only [val] at hv
      have hxy : x = y := by omega
      have htv : val ta = val tb := by omega
      have := ih tb (fun z hz => ha z (List.mem_cons_of_mem _ hz))
        (fun z hz => hb z (List.mem_cons_of_mem _ hz))
        (by simpa using hl) htv
      rw [hxy, this]

/-! ## Addition -/

theorem addBytes_spec (a : List Nat) : ∀ (b : List Nat) (c : Nat),
    a.length = b.length →
    val (addBytes a b c).1 + 256 ^ a.length * (addBytes a b c).2
        = val a + val b + c ∧
      validBytes (addBytes a b c).1 ∧ (addBytes a b c).1.length = a.length := by
  induction a with
  | nil =>
    intro b c h
    cases b with
    | nil => simp [addBytes, val, validBytes]
    | cons y tb => simp at h
  | cons x ta ih =>
    intro b c h
    cases b with
    | nil => simp at h
    | cons y tb =>
      have hlen : ta.length = tb.length := by simpa using h
      obtain ⟨ihv, ihok, ihlen⟩ := ih tb ((x + y + c) / 256) hlen
      refine ⟨?_, ?_, ?_⟩
      · simp only [addBytes, val, List.length_cons, pow_succ]
        have hmd : (x + y + c) % 256 + 256 * ((x + y + c) / 256) = x + y + c :=
          Nat.mod_add_div _ _
        -- combine the head digit with the inductive value identity
        have : (x + y + c) % 256 + 256 * (val (addBytes ta tb ((x + y + c) / 256)).1
            + 256 ^ ta.length * (addBytes ta tb ((x + y + c) / 256)).2)
            = x + y + c + 256 * (val ta + val tb) := by
          rw [Nat.mul_add, ← Nat.add_assoc]
          omega
        calc (x + y + c) % 256 + 256 * val (addBytes ta tb ((x + y + c) / 256)).1
              + 256 ^ ta.length * 256 * (addBytes ta tb ((x + y + c) / 256)).2
            = (x + y + c) % 256 + 256 * (val (addBytes ta tb ((x + y + c) / 256)).1
              + 256 ^ ta.length * (addBytes ta tb ((x + y + c) / 256)).2) := by ring
          _ = x + y + c + 256 * (val ta + val tb) := this
          _ = x + 256 * val ta + (y + 256 * val tb) + c := by ring
      · intro z hz
        simp only [addBytes] at hz
        rcases List.mem_cons.mp hz with hz | hz
        · subst hz; exact Nat.mod_lt _ (by norm_num)
        · exact ihok z hz
      · simp only [addBytes, List.length_cons, ihlen]

theorem checked_add_some_val (a b r : List Nat)
    (ha : a.length = 32) (hb : b.length = 32)
    (h : checked_add a b = some r) : val r = val a + val b ∧ valid32 r := by
  obtain ⟨hv, hok, hlen⟩ := addBytes_spec a b 0 (ha.trans hb.symm)
  unfold checked_add at h
  by_cases hc : (addBytes a b 0).2 ≠ 0
  · simp [hc] at h
  · simp [hc] at h
    push_neg at hc
    subst h
    rw [ha, hc] at hv
    simp at hv
    exact ⟨by omega, hlen.trans ha, hok⟩

theorem checked_add_none_iff (a b : List Nat)
    (ha : a.length = 32) (hb : b.length = 32) :
    checked_add a b = none ↔ 2 ^ 256 ≤ val a + val b := by
  obtain ⟨hv, hok, hlen⟩ := addBytes_spec a b 0 (ha.trans hb.symm)
  have hrlt : val (addBytes a b 0).1 < 256 ^ 32 := by
    have := val_lt _ hok
    rwa [hlen, ha] at this
  have hpow : (256 : Nat) ^ 32 = 2 ^ 256 := by norm_num
  rw [ha] at hv
  rw [hpow] at hv hrlt
  unfold checked_add
  constructor
  · intro h
    by_cases hc : (addBytes a b 0).2 ≠ 0
    · have hc1 : 1 ≤ (addBytes a b 0).2 := by omega
      calc (2 : Nat) ^ 256 = 2 ^ 256 * 1 := by ring
        _ ≤ 2 ^ 256 * (addBytes a b 0).2 := Nat.mul_le_mul_left _ hc1
        _ ≤ val (addBytes a b 0).1 + 2 ^ 256 * (addBytes a b 0).2 := Nat.le_add_left _ _
        _ = val a + val b + 0 := hv
        _ = val a + val b := by ring
    · simp [hc] at h
  · intro h
    by_cases hc : (addBytes a b 0).2 ≠ 0
    · simp [hc]
    · push_neg at hc
      rw [hc] at hv
      simp at hv
      omega

/-! ## Comparison -/

theorem nat_compare_lt {a b : Nat} (h : a < b) : compare a b = Ordering.lt := by
  simp [Nat.compare_eq_lt.mpr h]

theorem nat_compare_gt {a b : Nat} (h : b < a) : compare a b = Ordering.gt := by
  simp [Nat.compare_eq_gt.mpr h]

theorem nat_compare_eq (a : Nat) : compare a a = Ordering.eq := by
  simp [Nat.compare_eq_eq]

theorem compare_add_mul (A B x y k : Nat) (hA : A < 256 ^ k) (hB : B < 256 ^ k) :
    compare (A + 256 ^ k * x) (B + 256 ^ k * y)
      = (match compare x y with
          | Ordering.eq => compare A B
          | o => o) := by
  rcases Nat.lt_trichotomy x y with hxy | hxy | hxy
  · rw [nat_compare_lt hxy]
    have : A + 256 ^ k * x < B + 256 ^ k * y := by
      have h1 : 256 ^ k * (x + 1) ≤ 256 ^ k * y := Nat.mul_le_mul_left _ (by omega)
      have h2 : 256 ^ k * (x + 1) = 256 ^ k * x + 256 ^ k := by ring
      omega
    simp [nat_compare_lt this]
  · subst hxy
    rw [nat_compare_eq]
    rcases Nat.lt_trichotomy A B with hAB | hAB | hAB
    · rw [nat_compare_lt hAB, nat_compare_lt (by omega)]
    · subst hAB; rw [nat_compare_eq, nat_compare_eq]
    · rw [nat_compare_gt hAB, nat_compare_gt (by omega)]
  · rw [nat_compare_gt hxy]
    have : B + 256 ^ k * y < A + 256 ^ k * x := by
      have h1 : 256 ^ k * (y + 1) ≤ 256 ^ k * x := Nat.mul_le_mul_left _ (by omega)
      have h2 : 256 ^ k * (y + 1) = 256 ^ k * y + 256 ^ k := by ring
      omega
    simp [nat_compare_gt this]

/-- The most-significant-first walk computes the comparison of the numeric
values (stated on big-endian lists, whose reverses are the stored
little-endian arrays). -/
theorem cmpBytes_spec (m : List Nat) : ∀ (n : List Nat),
    m.length = n.length → validBytes m → validBytes n →
    cmpBytes m n = compare (val m.reverse) (val n.reverse) := by
  induction m with
  | nil =>
    intro n h _ _
    cases n with
    | nil => simp [cmpBytes, val, nat_compare_eq]
    | cons y tn => simp at h
  | cons x tm ih =>
    intro n h hm hn
    cases n with
    | nil => simp at h
    | cons y tn =>
      have hlen : tm.length = tn.length := by simpa using h
      have hmv : validBytes tm := fun z hz => hm z (List.mem_cons_of_mem _ hz)
      have hnv : validBytes tn := fun z hz => hn z (List.mem_cons_of_mem _ hz)
      have hrev : ∀ (t : List Nat) (w : Nat),
          val ((w :: t).reverse) = val t.reverse + 256 ^ t.length * w := by
        intro t w
        rw [List.reverse_cons, val_append, List.length_reverse]
        simp [val]
      have hA : val tm.reverse < 256 ^ tm.length := by
        have := val_lt tm.reverse (fun z hz => hmv z (List.mem_reverse.mp hz))
        rwa [List.length_reverse] at this
      have hB : val tn.reverse < 256 ^ tn.length := by
        have := val_lt tn.reverse (fun z hz => hnv z (List.mem_reverse.mp hz))
        rwa [List.length_reverse] at this
      have hB2 : val tn.reverse < 256 ^ tm.length := by rw [hlen]; exact hB
      rw [hrev tm x, hrev tn y, ← hlen,
        compare_add_mul (val tm.reverse) (val tn.reverse) x y tm.length hA hB2]
      simp only [cmpBytes]
      cases hcase : compare x y with
      | lt => rfl
      | eq => exact ih tn hlen hmv hnv
      | gt => rfl

theorem ucmp_eq_compare (a b : List Nat) (hl : a.length = b.length)
    (ha : validBytes a) (hb : validBytes b) :
    ucmp a b = compare (val a) (val b) := by
  unfold ucmp
  have := cmpBytes_spec a.reverse b.reverse
    (by simpa using hl)
    (fun z hz => ha z (List.mem_reverse.mp hz))
    (fun z hz => hb z (List.mem_reverse.mp hz))
  simpa using this

theorem ucmp_lt_iff (a b : List Nat) (ha : valid32 a) (hb : valid32 b) :
    ucmp a b = Ordering.lt ↔ val a < val b := by
  rw [ucmp_eq_compare a b (ha.1.trans hb.1.symm) ha.2 hb.2]
  exact Nat.compare_eq_lt

/-! ## Subtraction -/

theorem subBytes_spec (a : List Nat) : ∀ (b : List Nat) (brw : Nat),
    a.length = b.length → validBytes a → validBytes b → brw ≤ 1 →
    val b + brw ≤ val a →
    val (subBytes a b brw).1 = val a - val b - brw ∧
      validBytes (subBytes a b brw).1 ∧ (subBytes a b brw).1.length = a.length := by
  induction a with
  | nil =>
    intro b brw h _ _ _ hge
    cases b with
    | nil =>
      simp [val] at hge
      simp [subBytes, val, validBytes, hge]
    | cons y tb => simp at h
  | cons x ta ih =>
    intro b brw h ha hb hbr hge
    cases b with
    | nil => simp at h
    | cons y tb =>
      have hlen : ta.length = tb.length := by simpa using h
      have hav : validBytes ta := fun z hz => ha z (List.mem_cons_of_mem _ hz)
      have hbv : validBytes tb := fun z hz => hb z (List.mem_cons_of_mem _ hz)
      have hx : x < 256 := ha x (List.mem_cons_self _ _)
      have hy : y < 256 := hb y (List.mem_cons_self _ _)
      have hgev : y + 256 * val tb + brw ≤ x + 256 * val ta := by
        simpa [val] using hge
      by_cases hcase : x < y + brw
      · have hta : val tb + 1 ≤ val ta := by omega
        obtain ⟨ihv, ihok, ihlen⟩ := ih tb 1 hlen hav hbv (le_refl 1) hta
        refine ⟨?_, ?_, ?_⟩
        · simp only [subBytes, if_pos hcase, val, ihv]
          omega
        · intro z hz
          simp only [subBytes, if_pos hcase] at hz
          rcases List.mem_cons.mp hz with hz | hz
          · omega
          · exact ihok z hz
        · simp only [subBytes, if_pos hcase, List.length_cons, ihlen]
      · have hta : val tb ≤ val ta := by omega
        obtain ⟨ihv, ihok, ihlen⟩ := ih tb 0 hlen hav hbv (by omega) (by omega)
        refine ⟨?_, ?_, ?_⟩
        · simp only [subBytes, if_neg hcase, val, ihv]
          omega
        · intro z hz
          simp only [subBytes, if_neg hcase] at hz
          rcases List.mem_cons.mp hz with hz | hz
          · omega
          · exact ihok z hz
        · simp only [subBytes, if_neg hcase, List.length_cons, ihlen]

theorem checked_sub_none_iff (a b : List Nat) (ha : valid32 a) (hb : valid32 b) :
    checked_sub a b = none ↔ val a < val b := by
  unfold checked_sub
  by_cases hcmp : ucmp a b = Ordering.lt
  · simp [hcmp, (ucmp_lt_iff a b ha hb).mp hcmp]
  · simp [hcmp]
    by_contra hlt
    push_neg at hlt
    exact hcmp ((ucmp_lt_iff a b ha hb).mpr hlt)

theorem checked_sub_some_val (a b r : List Nat) (ha : valid32 a) (hb : valid32 b)
    (h : checked_sub a b = some r) :
    val r = val a - val b ∧ val b ≤ val a ∧ valid32 r := by
  unfold checked_sub at h
  by_cases hcmp : ucmp a b = Ordering.lt
  · simp [hcmp] at h
  · simp [hcmp] at h
    have hge : val b ≤ val a := by
      by_contra hlt
      exact hcmp ((ucmp_lt_iff a b ha hb).mpr (by omega))
    obtain ⟨hv, hok, hlen⟩ := subBytes_spec a b 0 (ha.1.trans hb.1.symm)
      ha.2 hb.2 (by omega) (by omega)
    subst h
    exact ⟨by omega, hge, hlen.trans ha.1, hok⟩

/-! # Ledger state

The contract reads and writes the key-value store through `get_balance` /
`set_balance`, `get_allowance` / `set_allowance`, `get_total_supply` /
`set_total_supply` and the metadata keys.  Balance keys are the literal
`BALANCE` followed by the address bytes, so distinct addresses give
distinct keys; here the store is split into its disjoint key families:
one association list for balances, one for allowances, and one optional
cell per fixed key.  An absent entry reads as zero. -/

abbrev Addr := String

/-- Association-list lookup (the `storage::has` + `storage::get` pair). -/
def findV {α : Type} [DecidableEq α] : List (α × List Nat) → α → Option (List Nat)
  | [], _ => none
  | (k, v) :: rest, k2 => if k = k2 then some v else findV rest k2

/-- Association-list update (`storage::set`): replace the key's entry or
append a new one. -/
def setV {α : Type} [DecidableEq α] (k : α) (v : List Nat) :
    List (α × List Nat) → List (α × List Nat)
  | [] => [(k, v)]
  | (k2, w) :: rest => if k2 = k then (k, v) :: rest else (k2, w) :: setV k v rest

structure LState where
  balances : List (Addr × List Nat)
  allowances : List ((Addr × Addr) × List Nat)
  supply : Option (List Nat)
  owner : Option Addr
  nameData : Option String
  symbolData : Option String
  decimalsData : Option Nat
deriving Repr, DecidableEq

/-- The store before deployment: no key is set. -/
def emptyState : LState :=
  { balances := [], allowances := [], supply := none, owner := none,
    nameData := none, symbolData := none, decimalsData := none }

/-- The `data.len() >= 32` guard of the storage readers: the first 32
bytes of the stored value, or zero when it is shorter. -/
def read32 (v : List Nat) : List Nat := if 32 ≤ v.length then v.take 32 else zero32

def get_balance (st : LState) (a : Addr) : List Nat :=
  match findV st.balances a with
  | some v => read32 v
  | none => zero32

def set_balance (st : LState) (a : Addr) (v : List Nat) : LState :=
  { st with balances := setV a v st.balances }

def get_allowance (st : LState) (o s : Addr) : List Nat :=
  match findV st.allowances (o, s) with
  | some v => read32 v
  | none => zero32

def set_allowance (st : LState) (o s : Addr) (v : List Nat) : LState :=
  { st with allowances := setV (o, s) v st.allowances }

def get_total_supply (st : LState) : List Nat :=
  match st.supply with
  | some v => read32 v
  | none => zero32

def set_total_supply (st : LState) (v : List Nat) : LState :=
  { st with supply := some v }

/-! # Entry points

Each entry point takes the caller (resolved by the host) and the decoded
arguments; `none` stands for an argument buffer from which the external
decoder cannot produce the value (the `expect` calls on `Args`).  The
result is either `ok` with the final state, or `err` with the state as
committed at the failure point: the `assert!` / `expect` / `panic!` calls
abort the call, and the writes already issued are the ones recorded in
that carried state (rolling them back is the host's job). -/

inductive Err
  | badArgs | notDeploying | selfTransfer | insufficientFunds | overflow
  | insufficientAllowance | supplyUnderflow | balanceUnderflow
  | noOwner | notOwner | unwrapPanic
deriving Repr, DecidableEq

inductive Res
  | ok (st : LState)
  | err (e : Err) (st : LState)
deriving Repr, DecidableEq

/-- The `amount_bytes.len() >= 32` guard applied to every raw u256
argument: the first 32 bytes, or a panic when shorter. -/
def decodeAmount (bytes : List Nat) : Option (List Nat) :=
  if 32 ≤ bytes.length then some (bytes.take 32) else none

/-- Default initial supply: `U256::from_u64(1_000_000_000_000_000_000)`. -/
def defaultSupply : List Nat := from_u64 1000000000000000000

/-- `constructor(name, symbol, decimals, totalSupply)`.  Undecodable
arguments fall back to defaults (`unwrap_or_else` / `unwrap_or`); a
supply argument shorter than 32 bytes falls back to the default supply. -/
def constructor (st : LState) (caller : Addr) (deploying : Bool)
    (nameArg symbolArg : Option String) (decimalsArg : Option Nat)
    (supplyArg : Option (List Nat)) : Res :=
  if !deploying then .err .notDeploying st
  else
    let nm := nameArg.getD "MassaToken"
    let sym := symbolArg.getD "MT"
    let dec := decimalsArg.getD 18
    let total_supply :=
      match supplyArg with
      | some bytes => if 32 ≤ bytes.length then bytes.take 32 else defaultSupply
      | none => defaultSupply
    let st1 := { st with nameData := some nm, symbolData := some sym,
                         decimalsData := some dec }
    let st2 := set_total_supply st1 total_supply
    let st3 := { st2 with owner := some caller }
    .ok (set_balance st3 caller total_supply)

/-- `transfer(to, amount)`. -/
def transfer (st : LState) (caller : Addr) (args : Option (Addr × List Nat)) : Res :=
  match args with
  | none => .err .badArgs st
  | some (toAddr, amountBytes) =>
    match decodeAmount amountBytes with
    | none => .err .badArgs st
    | some amount =>
      if caller = toAddr then .err .selfTransfer st
      else
        let from_balance := get_balance st caller
        let to_balance := get_balance st toAddr
        if ucmp from_balance amount = .lt then .err .insufficientFunds st
        else
          match checked_add to_balance amount with
          | none => .err .overflow st
          | some new_to_balance =>
            match checked_sub from_balance amount with
            | none => .err .unwrapPanic st
            | some new_from_balance =>
              .ok (set_balance (set_balance st caller new_from_balance)
                    toAddr new_to_balance)

/-- `increaseAllowance(spender, amount)`: on overflow the new allowance
is clamped to `U256::MAX`. -/
def increaseAllowance (st : LState) (caller : Addr)
    (args : Option (Addr × List Nat)) : Res :=
  match args with
  | none => .err .badArgs st
  | some (spender, amountBytes) =>
    match decodeAmount amountBytes with
    | none => .err .badArgs st
    | some amount =>
      let current := get_allowance st caller spender
      let new_allowance := (checked_add current amount).getD max32
      .ok (set_allowance st caller spender new_allowance)

/-- `decreaseAllowance(spender, amount)`: on underflow the new allowance
is clamped to `U256::ZERO`. -/
def decreaseAllowance (st : LState) (caller : Addr)
    (args : Option (Addr × List Nat)) : Res :=
  match args with
  | none => .err .badArgs st
  | some (spender, amountBytes) =>
    match decodeAmount amountBytes with
    | none => .err .badArgs st
    | some amount =>
      let current := get_allowance st caller spender
      if ucmp current amount = .gt then
        match checked_sub current amount with
        | none => .err .unwrapPanic st
        | some v => .ok (set_allowance st caller spender v)
      else .ok (set_allowance st caller spender zero32)

/-- `transferFrom(owner, recipient, amount)`; the caller is the spender. -/
def transferFrom (st : LState) (caller : Addr)
    (args : Option (Addr × Addr × List Nat)) : Res :=
  match args with
  | none => .err .badArgs st
  | some (owner, recipient, amountBytes) =>
    match decodeAmount amountBytes with
    | none => .err .badArgs st
    | some amount =>
      if owner = recipient then .err .selfTransfer st
      else
        let spender_allowance := get_allowance st owner caller
        if ucmp spender_allowance amount = .lt then .err .insufficientAllowance st
        else
          let owner_balance := get_balance st owner
          let recipient_balance := get_balance st recipient
          if ucmp owner_balance amount = .lt then .err .insufficientFunds st
          else
            match checked_add recipient_balance amount with
            | none => .err .overflow st
            | some new_recipient_balance =>
              match checked_sub owner_balance amount with
              | none => .err .unwrapPanic st
              | some new_owner_balance =>
                match checked_sub spender_allowance amount with
                | none => .err .unwrapPanic st
                | some new_allowance =>
                  .ok (set_allowance
                        (set_balance (set_balance st owner new_owner_balance)
                          recipient new_recipient_balance)
                        owner caller new_allowance)

/-- `mint(recipient, amount)`; `only_owner()` runs before decoding. -/
def mint (st : LState) (caller : Addr) (args : Option (Addr × List Nat)) : Res :=
  match st.owner with
  | none => .err .noOwner st
  | some o =>
    if caller ≠ o then .err .notOwner st
    else
      match args with
      | none => .err .badArgs st
      | some (recipient, amountBytes) =>
        match decodeAmount amountBytes with
        | none => .err .badArgs st
        | some amount =>
          let old_supply := get_total_supply st
          match checked_add old_supply amount with
          | none => .err .overflow st
          | some new_supply =>
            let st1 := set_total_supply st new_supply
            let old_balance := get_balance st1 recipient
            match checked_add old_balance amount with
            | none => .err .overflow st1
            | some new_balance => .ok (set_balance st1 recipient new_balance)

/-- `burn(amount)`: the total supply is decreased and written before the
caller's balance is read and checked. -/
def burn (st : LState) (caller : Addr) (args : Option (List Nat)) : Res :=
  match args with
  | none => .err .badArgs st
  | some amountBytes =>
    match decodeAmount amountBytes with
    | none => .err .badArgs st
    | some amount =>
      let old_supply := get_total_supply st
      match checked_sub old_supply amount with
      | none => .err .supplyUnderflow st
      | some new_supply =>
        let st1 := set_total_supply st new_supply
        let old_balance := get_balance st1 caller
        match checked_sub old_balance amount with
        | none => .err .balanceUnderflow st1
        | some new_balance => .ok (set_balance st1 caller new_balance)

/-- `burnFrom(owner, amount)`; the caller is the spender. -/
def burnFrom (st : LState) (caller : Addr) (args : Option (Addr × List Nat)) : Res :=
  match args with
  | none => .err .badArgs st
  | some (owner, amountBytes) =>
    match decodeAmount amountBytes with
    | none => .err .badArgs st
    | some amount =>
      let spender_allowance := get_allowance st owner caller
      if ucmp spender_allowance amount = .lt then .err .insufficientAllowance st
      else
        let old_supply := get_total_supply st
        match checked_sub old_supply amount with
        | none => .err .supplyUnderflow st
        | some new_supply =>
          let st1 := set_total_supply st new_supply
          let old_balance := get_balance st1 owner
          match checked_sub old_balance amount with
          | none => .err .balanceUnderflow st1
          | some new_balance =>
            let st2 := set_balance st1 owner new_balance
            match checked_sub spender_allowance amount with
            | none => .err .unwrapPanic st2
            | some new_allowance => .ok (set_allowance st2 owner caller new_allowance)

/-- `setOwner(newOwner)`: when an owner is set, only the owner may call. -/
def setOwner (st : LState) (caller : Addr) (args : Option Addr) : Res :=
  match args with
  | none => .err .badArgs st
  | some newOwner =>
    match st.owner with
    | some o =>
      if caller ≠ o then .err .notOwner st
      else .ok { st with owner := some newOwner }
    | none => .ok { st with owner := some newOwner }

/-! # Call sequences for the conservation invariant -/

/-- One mutating ledger call with its decoded arguments. -/
inductive Call
  | ctransfer (caller toAddr : Addr) (amountBytes : List Nat)
  | ctransferFrom (caller owner recipient : Addr) (amountBytes : List Nat)
  | cmint (caller recipient : Addr) (amountBytes : List Nat)
  | cburn (caller : Addr) (amountBytes : List Nat)
  | cburnFrom (caller owner : Addr) (amountBytes : List Nat)

def applyCall (st : LState) : Call → Res
  | .ctransfer c t a => transfer st c (some (t, a))
  | .ctransferFrom c o r a => transferFrom st c (some (o, r, a))
  | .cmint c r a => mint st c (some (r, a))
  | .cburn c a => burn st c (some a)
  | .cburnFrom c o a => burnFrom st c (some (o, a))

/-- The raw argument buffer only ever yields byte values below 256. -/
def Call.wf : Call → Prop
  | .ctransfer _ _ a => validBytes a
  | .ctransferFrom _ _ _ a => validBytes a
  | .cmint _ _ a => validBytes a
  | .cburn _ a => validBytes a
  | .cburnFrom _ _ a => validBytes a

/-- States produced from a fresh deployment by successful mutating calls. -/
inductive Reached : LState → Prop
  | base (caller : Addr) (deploying : Bool) (nameArg symbolArg : Option String)
      (decimalsArg : Option Nat) (supplyArg : Option (List Nat)) (st : LState) :
      (∀ bs, supplyArg = some bs → validBytes bs) →
      constructor emptyState caller deploying nameArg symbolArg decimalsArg
        supplyArg = .ok st →
      Reached st
  | step (st st2 : LState) (c : Call) : Reached st → c.wf →
      applyCall st c = .ok st2 → Reached st2

/-! # Well-formedness and the conservation invariant -/

def supplyOK : Option (List Nat) → Prop
  | none => True
  | some v => valid32 v

instance : (o : Option (List Nat)) → Decidable (supplyOK o)
  | none => isTrue trivial
  | some v => inferInstanceAs (Decidable (valid32 v))

/-- Every stored value is a well-formed 32-byte representation. -/
def WF (st : LState) : Prop :=
  (∀ p ∈ st.balances, valid32 p.2) ∧ (∀ p ∈ st.allowances, valid32 p.2) ∧
    supplyOK st.supply

instance (st : LState) : Decidable (WF st) :=
  inferInstanceAs (Decidable (_ ∧ _ ∧ _))

/-- Sum of all stored balance values. -/
def sumVals (l : List (Addr × List Nat)) : Nat := (l.map (fun p => val p.2)).sum

def sumBalances (st : LState) : Nat := sumVals st.balances

/-- `TotalSupply == Σ Balance[a]`. -/
def Conserved (st : LState) : Prop :=
  val (get_total_supply st) = sumBalances st

theorem findV_setV_self {α : Type} [DecidableEq α]
    (l : List (α × List Nat)) (k : α) (v : List Nat) :
    findV (setV k v l) k = some v := by
  induction l with
  | nil => simp [setV, findV]
  | cons p rest ih =>
    obtain ⟨k2, w⟩ := p
    by_cases h : k2 = k
    · simp [setV, h, findV]
    · simp [setV, findV, h, ih]

theorem findV_setV_ne {α : Type} [DecidableEq α]
    (l : List (α × List Nat)) (k k2 : α) (v : List Nat) (h : k ≠ k2) :
    findV (setV k v l) k2 = findV l k2 := by
  induction l with
  | nil => simp [setV, findV, h]
  | cons p rest ih =>
    obtain ⟨k3, w⟩ := p
    by_cases h3 : k3 = k
    · subst h3
      simp [setV, findV, h]
    · simp [setV, findV, h3, ih]

theorem findV_valid {α : Type} [DecidableEq α]
    (l : List (α × List Nat)) (k : α) (v : List Nat)
    (hl : ∀ p ∈ l, valid32 p.2) (h : findV l k = some v) : valid32 v := by
  induction l with
  | nil => simp [findV] at h
  | cons p rest ih =>
    obtain ⟨k2, w⟩ := p
    by_cases h2 : k2 = k
    · simp [findV, h2] at h
      subst h
      exact hl (k2, w) (List.mem_cons_self _ _)
    · simp [findV, h2] at h
      exact ih (fun q hq => hl q (List.mem_cons_of_mem _ hq)) h

theorem setV_valid {α : Type} [DecidableEq α]
    (l : List (α × List Nat)) (k : α) (v : List Nat)
    (hl : ∀ p ∈ l, valid32 p.2) (hv : valid32 v) :
    ∀ p ∈ setV k v l, valid32 p.2 := by
  induction l with
  | nil =>
    intro p hp
    simp [setV] at hp
    rw [hp]
    exact hv
  | cons q rest ih =>
    obtain ⟨k2, w⟩ := q
    intro p hp
    by_cases h2 : k2 = k
    · simp [setV, h2] at hp
      rcases hp with hp | hp
      · rw [hp]; exact hv
      · exact hl p (List.mem_cons_of_mem _ hp)
    · simp only [setV, if_neg h2] at hp
      rcases List.mem_cons.mp hp with hp | hp
      · rw [hp]
        exact hl (k2, w) (List.mem_cons_self _ _)
      · exact ih (fun q hq => hl q (List.mem_cons_of_mem _ hq)) p hp

theorem sumVals_setV (l : List (Addr × List Nat)) (k : Addr) (v : List Nat) :
    sumVals (setV k v l) + val ((findV l k).getD zero32)
      = sumVals l + val v := by
  induction l with
  | nil => simp [setV, findV, sumVals, val_zero32]
  | cons p rest ih =>
    obtain ⟨k2, w⟩ := p
    by_cases h : k2 = k
    · subst h
      simp [setV, findV, sumVals]
      omega
    · simp only [setV, if_neg h, findV, sumVals, List.map, List.sum_cons]
      simp only [sumVals] at ih
      omega

theorem read32_valid (v : List Nat) (h : valid32 v) : read32 v = v := by
  unfold read32
  rw [if_pos (le_of_eq h.1.symm), ← h.1, List.take_length]

theorem zero32_valid : valid32 zero32 := by decide

theorem get_balance_eq (st : LState) (a : Addr) (hWF : WF st) :
    get_balance st a = (findV st.balances a).getD zero32 := by
  unfold get_balance
  cases hf : findV st.balances a with
  | none => simp
  | some v => simp [read32_valid v (findV_valid _ _ _ hWF.1 hf)]

theorem get_balance_valid (st : LState) (a : Addr) (hWF : WF st) :
    valid32 (get_balance st a) := by
  rw [get_balance_eq st a hWF]
  cases hf : findV st.balances a with
  | none => simpa using zero32_valid
  | some v => simpa using findV_valid _ _ _ hWF.1 hf

theorem get_allowance_eq (st : LState) (o s : Addr) (hWF : WF st) :
    get_allowance st o s = (findV st.allowances (o, s)).getD zero32 := by
  unfold get_allowance
  cases hf : findV st.allowances (o, s) with
  | none => simp
  | some v => simp [read32_valid v (findV_valid _ _ _ hWF.2.1 hf)]

theorem get_allowance_valid (st : LState) (o s : Addr) (hWF : WF st) :
    valid32 (get_allowance st o s) := by
  rw [get_allowance_eq st o s hWF]
  cases hf : findV st.allowances (o, s) with
  | none => simpa using zero32_valid
  | some v => simpa using findV_valid _ _ _ hWF.2.1 hf

theorem get_total_supply_valid (st : LState) (hWF : WF st) :
    valid32 (get_total_supply st) := by
  unfold get_total_supply
  cases hs : st.supply with
  | none => exact zero32_valid
  | some v =>
    have hv : valid32 v := by
      have := hWF.2.2
      rw [hs] at this
      exact this
    show valid32 (read32 v)
    rw [read32_valid v hv]
    exact hv

theorem decodeAmount_valid (ab amount : List Nat) (hab : validBytes ab)
    (h : decodeAmount ab = some amount) : valid32 amount := by
  unfold decodeAmount at h
  by_cases hl : 32 ≤ ab.length
  · rw [if_pos hl] at h
    injection h with h
    subst h
    constructor
    · rw [List.length_take]
      omega
    · intro b hb
      exact hab b (List.take_subset 32 ab hb)
  · rw [if_neg hl] at h
    exact Option.noConfusion h

theorem defaultSupply_valid : valid32 defaultSupply := by decide

theorem findV_getD_le_sumVals (l : List (Addr × List Nat)) (k : Addr) :
    val ((findV l k).getD zero32) ≤ sumVals l := by
  induction l with
  | nil => simp [findV, sumVals, val_zero32]
  | cons p rest ih =>
    obtain ⟨k2, w⟩ := p
    by_cases h : k2 = k
    · simp [findV, h, sumVals]
    · simp only [findV, if_neg h, sumVals, List.map, List.sum_cons]
      simp only [sumVals] at ih
      omega

theorem get_total_supply_set (st : LState) (v : List Nat) (hv : valid32 v) :
    get_total_supply (set_total_supply st v) = v := by
  unfold get_total_supply set_total_supply
  simp [read32_valid v hv]

/-! ## Invariant preservation, one lemma per mutating entry point -/

theorem transfer_ok_inv (st st2 : LState) (c t : Addr) (ab : List Nat)
    (hWF : WF st) (hab : validBytes ab)
    (h : transfer st c (some (t, ab)) = .ok st2) :
    WF st2 ∧ (Conserved st → Conserved st2) := by
  simp only [transfer] at h
  cases hd : decodeAmount ab with
  | none => simp only [hd] at h; exact Res.noConfusion h
  | some amount =>
  simp only [hd] at h
  by_cases hct : c = t
  · rw [if_pos hct] at h; exact Res.noConfusion h
  rw [if_neg hct] at h
  by_cases hlt : ucmp (get_balance st c) amount = Ordering.lt
  · rw [if_pos hlt] at h; exact Res.noConfusion h
  rw [if_neg hlt] at h
  cases hca : checked_add (get_balance st t) amount with
  | none => simp only [hca] at h; exact Res.noConfusion h
  | some nt =>
  simp only [hca] at h
  cases hcs : checked_sub (get_balance st c) amount with
  | none => simp only [hcs] at h; exact Res.noConfusion h
  | some nf =>
  simp only [hcs] at h
  injection h with h
  subst h
  have hamt : valid32 amount := decodeAmount_valid ab amount hab hd
  have hbc : valid32 (get_balance st c) := get_balance_valid st c hWF
  have hbt : valid32 (get_balance st t) := get_balance_valid st t hWF
  obtain ⟨hntv, hntok⟩ := checked_add_some_val _ _ _ hbt.1 hamt.1 hca
  obtain ⟨hnfv, hge, hnfok⟩ := checked_sub_some_val _ _ _ hbc hamt hcs
  constructor
  · exact ⟨setV_valid _ _ _ (setV_valid _ _ _ hWF.1 hnfok) hntok,
      hWF.2.1, hWF.2.2⟩
  · intro hco
    unfold Conserved at hco ⊢
    have s1 := sumVals_setV st.balances c nf
    have s2 := sumVals_setV (setV c nf st.balances) t nt
    rw [findV_setV_ne _ c t _ hct] at s2
    rw [← get_balance_eq st c hWF] at s1
    rw [← get_balance_eq st t hWF] at s2
    show val (get_total_supply st)
        = sumVals (setV t nt (setV c nf st.balances))
    unfold sumBalances at hco
    omega

theorem transferFrom_ok_inv (st st2 : LState) (sp ow rc : Addr) (ab : List Nat)
    (hWF : WF st) (hab : validBytes ab)
    (h : transferFrom st sp (some (ow, rc, ab)) = .ok st2) :
    WF st2 ∧ (Conserved st → Conserved st2) := by
  simp only [transferFrom] at h
  cases hd : decodeAmount ab with
  | none => simp only [hd] at h; exact Res.noConfusion h
  | some amount =>
  simp only [hd] at h
  by_cases hor : ow = rc
  · rw [if_pos hor] at h; exact Res.noConfusion h
  rw [if_neg hor] at h
  by_cases hal : ucmp (get_allowance st ow sp) amount = Ordering.lt
  · rw [if_pos hal] at h; exact Res.noConfusion h
  rw [if_neg hal] at h
  by_cases hob : ucmp (get_balance st ow) amount = Ordering.lt
  · rw [if_pos hob] at h; exact Res.noConfusion h
  rw [if_neg hob] at h
  cases hca : checked_add (get_balance st rc) amount with
  | none => simp only [hca] at h; exact Res.noConfusion h
  | some nr =>
  simp only [hca] at h
  cases hcs : checked_sub (get_balance st ow) amount with
  | none => simp only [hcs] at h; exact Res.noConfusion h
  | some no =>
  simp only [hcs] at h
  cases hcal : checked_sub (get_allowance st ow sp) amount with
  | none => simp only [hcal] at h; exact Res.noConfusion h
  | some na =>
  simp only [hcal] at h
  injection h with h
  subst h
  have hamt : valid32 amount := decodeAmount_valid ab amount hab hd
  have hbo : valid32 (get_balance st ow) := get_balance_valid st ow hWF
  have hbr : valid32 (get_balance st rc) := get_balance_valid st rc hWF
  have hba : valid32 (get_allowance st ow sp) := get_allowance_valid st ow sp hWF
  obtain ⟨hnrv, hnrok⟩ := checked_add_some_val _ _ _ hbr.1 hamt.1 hca
  obtain ⟨hnov, hgeo, hnook⟩ := checked_sub_some_val _ _ _ hbo hamt hcs
  obtain ⟨hnav, hgea, hnaok⟩ := checked_sub_some_val _ _ _ hba hamt hcal
  constructor
  · exact ⟨setV_valid _ _ _ (setV_valid _ _ _ hWF.1 hnook) hnrok,
      setV_valid _ _ _ hWF.2.1 hnaok, hWF.2.2⟩
  · intro hco
    unfold Conserved at hco ⊢
    have s1 := sumVals_setV st.balances ow no
    have s2 := sumVals_setV (setV ow no st.balances) rc nr
    rw [findV_setV_ne _ ow rc _ hor] at s2
    rw [← get_balance_eq st ow hWF] at s1
    rw [← get_balance_eq st rc hWF] at s2
    show val (get_total_supply st)
        = sumVals (setV rc nr (setV ow no st.balances))
    unfold sumBalances at hco
    omega

theorem mint_ok_inv (st st2 : LState) (c r : Addr) (ab : List Nat)
    (hWF : WF st) (hab : validBytes ab)
    (h : mint st c (some (r, ab)) = .ok st2) :
    WF st2 ∧ (Conserved st → Conserved st2) := by
  simp only [mint] at h
  cases ho : st.owner with
  | none => simp only [ho] at h; exact Res.noConfusion h
  | some o =>
  simp only [ho] at h
  by_cases hco : c ≠ o
  · rw [if_pos hco] at h; exact Res.noConfusion h
  rw [if_neg hco] at h
  cases hd : decodeAmount ab with
  | none => simp only [hd] at h; exact Res.noConfusion h
  | some amount =>
  simp only [hd] at h
  cases hca : checked_add (get_total_supply st) amount with
  | none => simp only [hca] at h; exact Res.noConfusion h
  | some ns =>
  simp only [hca] at h
  cases hcb : checked_add (get_balance (set_total_supply st ns) r) amount with
  | none => simp only [hcb] at h; exact Res.noConfusion h
  | some nb =>
  simp only [hcb] at h
  injection h with h
  subst h
  have hamt : valid32 amount := decodeAmount_valid ab amount hab hd
  have hsup : valid32 (get_total_supply st) := get_total_supply_valid st hWF
  have hbr : valid32 (get_balance st r) := get_balance_valid st r hWF
  have hbr2 : get_balance (set_total_supply st ns) r = get_balance st r := rfl
  rw [hbr2] at hcb
  obtain ⟨hnsv, hnsok⟩ := checked_add_some_val _ _ _ hsup.1 hamt.1 hca
  obtain ⟨hnbv, hnbok⟩ := checked_add_some_val _ _ _ hbr.1 hamt.1 hcb
  constructor
  · exact ⟨setV_valid _ _ _ hWF.1 hnbok, hWF.2.1, hnsok⟩
  · intro hco2
    unfold Conserved at hco2 ⊢
    have s1 := sumVals_setV st.balances r nb
    rw [← get_balance_eq st r hWF] at s1
    have hts : get_total_supply (set_balance (set_total_supply st ns) r nb)
        = ns := get_total_supply_set st ns hnsok
    rw [hts]
    show val ns = sumVals (setV r nb st.balances)
    unfold sumBalances at hco2
    omega

theorem burn_ok_inv (st st2 : LState) (c : Addr) (ab : List Nat)
    (hWF : WF st) (hab : validBytes ab)
    (h : burn st c (some ab) = .ok st2) :
    WF st2 ∧ (Conserved st → Conserved st2) := by
  simp only [burn] at h
  cases hd : decodeAmount ab with
  | none => simp only [hd] at h; exact Res.noConfusion h
  | some amount =>
  simp only [hd] at h
  cases hcs : checked_sub (get_total_supply st) amount with
  | none => simp only [hcs] at h; exact Res.noConfusion h
  | some ns =>
  simp only [hcs] at h
  cases hcb : checked_sub (get_balance (set_total_supply st ns) c) amount with
  | none => simp only [hcb] at h; exact Res.noConfusion h
  | some nb =>
  simp only [hcb] at h
  injection h with h
  subst h
  have hamt : valid32 amount := decodeAmount_valid ab amount hab hd
  have hsup : valid32 (get_total_supply st) := get_total_supply_valid st hWF
  have hbc : valid32 (get_balance st c) := get_balance_valid st c hWF
  have hbc2 : get_balance (set_total_supply st ns) c = get_balance st c := rfl
  rw [hbc2] at hcb
  obtain ⟨hnsv, hges, hnsok⟩ := checked_sub_some_val _ _ _ hsup hamt hcs
  obtain ⟨hnbv, hgeb, hnbok⟩ := checked_sub_some_val _ _ _ hbc hamt hcb
  constructor
  · exact ⟨setV_valid _ _ _ hWF.1 hnbok, hWF.2.1, hnsok⟩
  · intro hco
    unfold Conserved at hco ⊢
    have s1 := sumVals_setV st.balances c nb
    have hle := findV_getD_le_sumVals st.balances c
    rw [← get_balance_eq st c hWF] at s1 hle
    have hts : get_total_supply (set_balance (set_total_supply st ns) c nb)
        = ns := get_total_supply_set st ns hnsok
    rw [hts]
    show val ns = sumVals (setV c nb st.balances)
    unfold sumBalances at hco
    omega

theorem burnFrom_ok_inv (st st2 : LState) (sp ow : Addr) (ab : List Nat)
    (hWF : WF st) (hab : validBytes ab)
    (h : burnFrom st sp (some (ow, ab)) = .ok st2) :
    WF st2 ∧ (Conserved st → Conserved st2) := by
  simp only [burnFrom] at h
  cases hd : decodeAmount ab with
  | none => simp only [hd] at h; exact Res.noConfusion h
  | some amount =>
  simp only [hd] at h
  by_cases hal : ucmp (get_allowance st ow sp) amount = Ordering.lt
  · rw [if_pos hal] at h; exact Res.noConfusion h
  rw [if_neg hal] at h
  cases hcs : checked_sub (get_total_supply st) amount with
  | none => simp only [hcs] at h; exact Res.noConfusion h
  | some ns =>
  simp only [hcs] at h
  cases hcb : checked_sub (get_balance (set_total_supply st ns) ow) amount with
  | none => simp only [hcb] at h; exact Res.noConfusion h
  | some nb =>
  simp only [hcb] at h
  cases hcal : checked_sub (get_allowance st ow sp) amount with
  | none => simp only [hcal] at h; exact Res.noConfusion h
  | some na =>
  simp only [hcal] at h
  injection h with h
  subst h
  have hamt : valid32 amount := decodeAmount_valid ab amount hab hd
  have hsup : valid32 (get_total_supply st) := get_total_supply_valid st hWF
  have hbo : valid32 (get_balance st ow) := get_balance_valid st ow hWF
  have hba : valid32 (get_allowance st ow sp) := get_allowance_valid st ow sp hWF
  have hbo2 : get_balance (set_total_supply st ns) ow = get_balance st ow := rfl
  rw [hbo2] at hcb
  obtain ⟨hnsv, hges, hnsok⟩ := checked_sub_some_val _ _ _ hsup hamt hcs
  obtain ⟨hnbv, hgeb, hnbok⟩ := checked_sub_some_val _ _ _ hbo hamt hcb
  obtain ⟨hnav, hgea, hnaok⟩ := checked_sub_some_val _ _ _ hba hamt hcal
  constructor
  · exact ⟨setV_valid _ _ _ hWF.1 hnbok, setV_valid _ _ _ hWF.2.1 hnaok, hnsok⟩
  · intro hco
    unfold Conserved at hco ⊢
    have s1 := sumVals_setV st.balances ow nb
    have hle := findV_getD_le_sumVals st.balances ow
    rw [← get_balance_eq st ow hWF] at s1 hle
    have hts : get_total_supply (set_allowance
        (set_balance (set_total_supply st ns) ow nb) ow sp na)
        = ns := get_total_supply_set st ns hnsok
    rw [hts]
    show val ns = sumVals (setV ow nb st.balances)
    unfold sumBalances at hco
    omega

/-- The state a successful deployment-phase construction produces. -/
def ctorState (caller : Addr) (nameArg symbolArg : Option String)
    (decimalsArg : Option Nat) (ts : List Nat) : LState :=
  { balances := [(caller, ts)], allowances := [], supply := some ts,
    owner := some caller, nameData := some (nameArg.getD "MassaToken"),
    symbolData := some (symbolArg.getD "MT"),
    decimalsData := some (decimalsArg.getD 18) }

/-- The initial supply the constructor stores for a given raw argument. -/
def ctorSupply : Option (List Nat) → List Nat
  | some bytes => if 32 ≤ bytes.length then bytes.take 32 else defaultSupply
  | none => defaultSupply

theorem constructor_emptyState_eq (caller : Addr)
    (nameArg symbolArg : Option String) (decimalsArg : Option Nat)
    (supplyArg : Option (List Nat)) :
    constructor emptyState caller true nameArg symbolArg decimalsArg supplyArg
      = .ok (ctorState caller nameArg symbolArg decimalsArg
          (ctorSupply supplyArg)) := by
  cases supplyArg <;> rfl

theorem ctorSupply_valid (supplyArg : Option (List Nat))
    (hsb : ∀ bs, supplyArg = some bs → validBytes bs) :
    valid32 (ctorSupply supplyArg) := by
  cases supplyArg with
  | none => exact defaultSupply_valid
  | some bytes =>
    show valid32 (if 32 ≤ bytes.length then bytes.take 32 else defaultSupply)
    by_cases hl : 32 ≤ bytes.length
    · rw [if_pos hl]
      refine ⟨?_, ?_⟩
      · rw [List.length_take]; omega
      · intro b hb
        exact hsb bytes rfl b (List.take_subset 32 bytes hb)
    · rw [if_neg hl]
      exact defaultSupply_valid

theorem constructor_ok_inv (caller : Addr) (deploying : Bool)
    (nameArg symbolArg : Option String) (decimalsArg : Option Nat)
    (supplyArg : Option (List Nat)) (st : LState)
    (hsb : ∀ bs, supplyArg = some bs → validBytes bs)
    (h : constructor emptyState caller deploying nameArg symbolArg
      decimalsArg supplyArg = .ok st) :
    WF st ∧ Conserved st := by
  cases deploying with
  | false => simp [constructor] at h
  | true =>
    rw [constructor_emptyState_eq] at h
    injection h with h
    subst h
    have hts : valid32 (ctorSupply supplyArg) := ctorSupply_valid supplyArg hsb
    refine ⟨⟨?_, ?_, ?_⟩, ?_⟩
    · intro p hp
      simp [ctorState] at hp
      rw [hp]
      exact hts
    · intro p hp
      simp [ctorState] at hp
    · exact hts
    · have hsup : get_total_supply (ctorState caller nameArg symbolArg
          decimalsArg (ctorSupply supplyArg)) = ctorSupply supplyArg := by
        simp [get_total_supply, ctorState, read32_valid _ hts]
      unfold Conserved
      rw [hsup]
      simp [sumBalances, ctorState, sumVals, val]

/-- Every reachable state is well-formed and conserves the supply. -/
theorem reached_inv (st : LState) (h : Reached st) : WF st ∧ Conserved st := by
  induction h with
  | base caller dep nameArg symbolArg decimalsArg supplyArg st hsb hc =>
    exact constructor_ok_inv caller dep nameArg symbolArg decimalsArg
      supplyArg st hsb hc
  | step st st2 c hr hwf happ ih =>
    cases c with
    | ctransfer cc t a =>
      obtain ⟨w, hco⟩ := transfer_ok_inv st st2 cc t a ih.1 hwf happ
      exact ⟨w, hco ih.2⟩
    | ctransferFrom cc o r a =>
      obtain ⟨w, hco⟩ := transferFrom_ok_inv st st2 cc o r a ih.1 hwf happ
      exact ⟨w, hco ih.2⟩
    | cmint cc r a =>
      obtain ⟨w, hco⟩ := mint_ok_inv st st2 cc r a ih.1 hwf happ
      exact ⟨w, hco ih.2⟩
    | cburn cc a =>
      obtain ⟨w, hco⟩ := burn_ok_inv st st2 cc a ih.1 hwf happ
      exact ⟨w, hco ih.2⟩
    | cburnFrom cc o a =>
      obtain ⟨w, hco⟩ := burnFrom_ok_inv st st2 cc o a ih.1 hwf happ
      exact ⟨w, hco ih.2⟩

/-! ## Reading back written entries -/

theorem get_balance_set_balance_self (st : LState) (a : Addr) (v : List Nat)
    (hv : valid32 v) : get_balance (set_balance st a v) a = v := by
  show (match findV (setV a v st.balances) a with
    | some w => read32 w
    | none => zero32) = v
  rw [findV_setV_self]
  exact read32_valid v hv

theorem get_balance_set_balance_ne (st : LState) (a b : Addr) (v : List Nat)
    (h : a ≠ b) : get_balance (set_balance st a v) b = get_balance st b := by
  show (match findV (setV a v st.balances) b with
    | some w => read32 w
    | none => zero32) = get_balance st b
  rw [findV_setV_ne _ a b _ h]
  rfl

theorem get_allowance_set_allowance_self (st : LState) (o s : Addr)
    (v : List Nat) (hv : valid32 v) :
    get_allowance (set_allowance st o s v) o s = v := by
  show (match findV (setV (o, s) v st.allowances) (o, s) with
    | some w => read32 w
    | none => zero32) = v
  rw [findV_setV_self]
  exact read32_valid v hv

/-! # The claims -/

/-- C1: Conservation: starting from a freshly constructed ledger, after
every sequence of successful `transfer`, `transferFrom`, `mint`, `burn`,
`burnFrom` calls, the stored total supply equals the sum of all stored
balance values. -/
theorem C1_conservation (st : LState) (h : Reached st) :
    val (get_total_supply st) = sumBalances st :=
  (reached_inv st h).2

/-- C1 witness: the invariant evaluated on a freshly deployed ledger. -/
theorem C1_conservation_witness :
    val (get_total_supply (ctorState "D" none none none defaultSupply))
      = sumBalances (ctorState "D" none none none defaultSupply) :=
  C1_conservation (ctorState "D" none none none defaultSupply)
    (Reached.base "D" true none none none none
      (ctorState "D" none none none defaultSupply)
      (fun bs hbs => by cases hbs) (by rfl))

/-- C3: `checked_add` returns exactly the integer sum when it is below
`2 ^ 256`, and returns no value exactly when the sum reaches `2 ^ 256`. -/
theorem C3_checked_add (a b : List Nat) (ha : valid32 a) (hb : valid32 b) :
    (∀ r, checked_add a b = some r → val r = val a + val b) ∧
      (checked_add a b = none ↔ 2 ^ 256 ≤ val a + val b) :=
  ⟨fun r hr => (checked_add_some_val a b r ha.1 hb.1 hr).1,
    checked_add_none_iff a b ha.1 hb.1⟩

/-- C3 witness: `checked_add` evaluated at 0 and 7. -/
theorem C3_checked_add_witness :
    (∀ r, checked_add zero32 (from_u64 7) = some r →
      val r = val zero32 + val (from_u64 7)) ∧
      (checked_add zero32 (from_u64 7) = none ↔
        2 ^ 256 ≤ val zero32 + val (from_u64 7)) :=
  C3_checked_add zero32 (from_u64 7) (by decide) (by decide)

/-- C4: `checked_sub` returns no value exactly when `a < b` as unsigned
integers, and otherwise the exact integer difference. -/
theorem C4_checked_sub (a b : List Nat) (ha : valid32 a) (hb : valid32 b) :
    (checked_sub a b = none ↔ val a < val b) ∧
      (∀ r, checked_sub a b = some r → val r = val a - val b) :=
  ⟨checked_sub_none_iff a b ha hb,
    fun r hr => (checked_sub_some_val a b r ha hb hr).1⟩

/-- C4 witness: `checked_sub` evaluated at 9 and 4. -/
theorem C4_checked_sub_witness :
    (checked_sub (from_u64 9) (from_u64 4) = none ↔
      val (from_u64 9) < val (from_u64 4)) ∧
      (∀ r, checked_sub (from_u64 9) (from_u64 4) = some r →
        val r = val (from_u64 9) - val (from_u64 4)) :=
  C4_checked_sub (from_u64 9) (from_u64 4) (by decide) (by decide)

/-- C5: the most-significant-byte-first comparison coincides with the
comparison of the numeric magnitudes the little-endian arrays represent,
and compares equal exactly for byte-identical representations. -/
theorem C5_ord (a b : List Nat) (ha : valid32 a) (hb : valid32 b) :
    ucmp a b = compare (val a) (val b) ∧
      (ucmp a b = Ordering.eq ↔ a = b) := by
  have hc := ucmp_eq_compare a b (ha.1.trans hb.1.symm) ha.2 hb.2
  refine ⟨hc, ?_⟩
  rw [hc]
  constructor
  · intro he
    exact val_inj a b ha.2 hb.2 (ha.1.trans hb.1.symm) (Nat.compare_eq_eq.mp he)
  · intro he
    subst he
    exact nat_compare_eq _
/-- C5 witness: the comparison evaluated at 3 and 300. -/
theorem C5_ord_witness :
    ucmp (from_u64 3) (from_u64 300) =
        compare (val (from_u64 3)) (val (from_u64 300)) ∧
      (ucmp (from_u64 3) (from_u64 300) = Ordering.eq ↔
        from_u64 3 = from_u64 300) :=
  C5_ord (from_u64 3) (from_u64 300) (by decide) (by decide)

/-- C6: `transfer(recipient, amount)` succeeds exactly when the caller is
not the recipient, the caller holds at least `amount`, and the recipient
balance plus `amount` fits in 256 bits; on success the caller's balance
decreases and the recipient's increases by `amount`, and on any failure no
balance changes. -/
theorem C6_transfer (st : LState) (c t : Addr) (amt : List Nat)
    (hWF : WF st) (hamt : valid32 amt) :
    ((∃ st2, transfer st c (some (t, amt)) = Res.ok st2) ↔
      (c ≠ t ∧ val amt ≤ val (get_balance st c) ∧
        val (get_balance st t) + val amt < 2 ^ 256)) ∧
    (∀ st2, transfer st c (some (t, amt)) = Res.ok st2 →
      val (get_balance st2 c) = val (get_balance st c) - val amt ∧
      val (get_balance st2 t) = val (get_balance st t) + val amt) ∧
    (∀ e st2, transfer st c (some (t, amt)) = Res.err e st2 → st2 = st) := by
  have hd : decodeAmount amt = some amt := by
    unfold decodeAmount
    rw [if_pos (le_of_eq hamt.1.symm), ← hamt.1, List.take_length]
  have hbc : valid32 (get_balance st c) := get_balance_valid st c hWF
  have hbt : valid32 (get_balance st t) := get_balance_valid st t hWF
  by_cases hct : c = t
  · have he : transfer st c (some (t, amt)) = Res.err Err.selfTransfer st := by
      simp only [transfer, hd, if_pos hct]
    refine ⟨⟨?_, ?_⟩, ?_, ?_⟩
    · rintro ⟨st2, h2⟩
      rw [he] at h2
      exact Res.noConfusion h2
    · rintro ⟨hne, -⟩
      exact absurd hct hne
    · intro st2 h2
      rw [he] at h2
      exact Res.noConfusion h2
    · intro e st2 h2
      rw [he] at h2
      injection h2 with h2a h2b
      exact h2b.symm
  by_cases hlt : ucmp (get_balance st c) amt = Ordering.lt
  · have hvlt : val (get_balance st c) < val amt :=
      (ucmp_lt_iff _ _ hbc hamt).mp hlt
    have he : transfer st c (some (t, amt)) = Res.err Err.insufficientFunds st := by
      simp only [transfer, hd, if_neg hct, if_pos hlt]
    refine ⟨⟨?_, ?_⟩, ?_, ?_⟩
    · rintro ⟨st2, h2⟩
      rw [he] at h2
      exact Res.noConfusion h2
    · rintro ⟨-, hge, -⟩
      omega
    · intro st2 h2
      rw [he] at h2
      exact Res.noConfusion h2
    · intro e st2 h2
      rw [he] at h2
      injection h2 with h2a h2b
      exact h2b.symm
  have hge : val amt ≤ val (get_balance st c) := by
    by_contra hx
    push_neg at hx
    exact hlt ((ucmp_lt_iff _ _ hbc hamt).mpr hx)
  cases hca : checked_add (get_balance st t) amt with
  | none =>
    have hof : 2 ^ 256 ≤ val (get_balance st t) + val amt :=
      (checked_add_none_iff _ _ hbt.1 hamt.1).mp hca
    have he : transfer st c (some (t, amt)) = Res.err Err.overflow st := by
      simp only [transfer, hd, if_neg hct, if_neg hlt, hca]
    refine ⟨⟨?_, ?_⟩, ?_, ?_⟩
    · rintro ⟨st2, h2⟩
      rw [he] at h2
      exact Res.noConfusion h2
    · rintro ⟨-, -, hov⟩
      omega
    · intro st2 h2
      rw [he] at h2
      exact Res.noConfusion h2
    · intro e st2 h2
      rw [he] at h2
      injection h2 with h2a h2b
      exact h2b.symm
  | some nt =>
  cases hcs : checked_sub (get_balance st c) amt with
  | none =>
    have := (checked_sub_none_iff _ _ hbc hamt).mp hcs
    omega
  | some nf =>
  obtain ⟨hntv, hntok⟩ := checked_add_some_val _ _ _ hbt.1 hamt.1 hca
  obtain ⟨hnfv, hge2, hnfok⟩ := checked_sub_some_val _ _ _ hbc hamt hcs
  have hok : transfer st c (some (t, amt)) =
      Res.ok (set_balance (set_balance st c nf) t nt) := by
    simp only [transfer, hd, if_neg hct, if_neg hlt, hca, hcs]
  have hov : val (get_balance st t) + val amt < 2 ^ 256 := by
    by_contra hx
    push_neg at hx
    rw [(checked_add_none_iff _ _ hbt.1 hamt.1).mpr hx] at hca
    exact Option.noConfusion hca
  refine ⟨⟨?_, ?_⟩, ?_, ?_⟩
  · intro _
    exact ⟨hct, hge, hov⟩
  · intro _
    exact ⟨set_balance (set_balance st c nf) t nt, hok⟩
  · intro st2 h2
    rw [hok] at h2
    injection h2 with h2
    subst h2
    constructor
    · rw [get_balance_set_balance_ne _ t c _ (Ne.symm hct),
        get_balance_set_balance_self _ c nf hnfok]
      omega
    · rw [get_balance_set_balance_self _ t nt hntok]
      exact hntv
  · intro e st2 h2
    rw [hok] at h2
    exact Res.noConfusion h2

/-- C6 witness: a transfer of 30 out of a fresh balance of 100. -/
theorem C6_transfer_witness :
    ((∃ st2, transfer (ctorState "D" none none none (from_u64 100)) "D"
        (some ("A", from_u64 30)) = Res.ok st2) ↔
      ("D" ≠ "A" ∧
        val (from_u64 30) ≤
          val (get_balance (ctorState "D" none none none (from_u64 100)) "D") ∧
        val (get_balance (ctorState "D" none none none (from_u64 100)) "A")
          + val (from_u64 30) < 2 ^ 256)) ∧
    (∀ st2, transfer (ctorState "D" none none none (from_u64 100)) "D"
        (some ("A", from_u64 30)) = Res.ok st2 →
      val (get_balance st2 "D") =
        val (get_balance (ctorState "D" none none none (from_u64 100)) "D")
          - val (from_u64 30) ∧
      val (get_balance st2 "A") =
        val (get_balance (ctorState "D" none none none (from_u64 100)) "A")
          + val (from_u64 30)) ∧
    (∀ e st2, transfer (ctorState "D" none none none (from_u64 100)) "D"
        (some ("A", from_u64 30)) = Res.err e st2 →
      st2 = ctorState "D" none none none (from_u64 100)) :=
  C6_transfer (ctorState "D" none none none (from_u64 100)) "D" "A"
    (from_u64 30) (by decide) (by decide)

/-- C7: after a successful `transferFrom(owner, recipient, amount)` by a
spender, the stored allowance for (owner, spender) is exactly the previous
allowance minus `amount`. -/
theorem C7_transferFrom_allowance (st st2 : LState) (sp ow rc : Addr)
    (amt : List Nat) (hWF : WF st) (hamt : valid32 amt)
    (h : transferFrom st sp (some (ow, rc, amt)) = Res.ok st2) :
    val (get_allowance st2 ow sp) =
        val (get_allowance st ow sp) - val amt ∧
      val amt ≤ val (get_allowance st ow sp) := by
  have hd : decodeAmount amt = some amt := by
    unfold decodeAmount
    rw [if_pos (le_of_eq hamt.1.symm), ← hamt.1, List.take_length]
  simp only [transferFrom, hd] at h
  by_cases hor : ow = rc
  · rw [if_pos hor] at h
    exact Res.noConfusion h
  rw [if_neg hor] at h
  by_cases hal : ucmp (get_allowance st ow sp) amt = Ordering.lt
  · rw [if_pos hal] at h
    exact Res.noConfusion h
  rw [if_neg hal] at h
  by_cases hob : ucmp (get_balance st ow) amt = Ordering.lt
  · rw [if_pos hob] at h
    exact Res.noConfusion h
  rw [if_neg hob] at h
  cases hca : checked_add (get_balance st rc) amt with
  | none => simp only [hca] at h; exact Res.noConfusion h
  | some nr =>
  simp only [hca] at h
  cases hcs : checked_sub (get_balance st ow) amt with
  | none => simp only [hcs] at h; exact Res.noConfusion h
  | some no =>
  simp only [hcs] at h
  cases hcal : checked_sub (get_allowance st ow sp) amt with
  | none => simp only [hcal] at h; exact Res.noConfusion h
  | some na =>
  simp only [hcal] at h
  injection h with h
  subst h
  have hba : valid32 (get_allowance st ow sp) := get_allowance_valid st ow sp hWF
  obtain ⟨hnav, hgea, hnaok⟩ := checked_sub_some_val _ _ _ hba hamt hcal
  rw [get_allowance_set_allowance_self _ ow sp na hnaok]
  exact ⟨hnav, hgea⟩

/-- A ledger where D holds 100 tokens and has granted A an allowance of 60. -/
def c7State : LState :=
  { balances := [("D", from_u64 100)],
    allowances := [(("D", "A"), from_u64 60)],
    supply := some (from_u64 100), owner := some "D",
    nameData := none, symbolData := none, decimalsData := none }

/-- The state after A moves the full 60-token allowance from D to B. -/
def c7Result : LState :=
  { balances := [("D", from_u64 40), ("B", from_u64 60)],
    allowances := [(("D", "A"), zero32)],
    supply := some (from_u64 100), owner := some "D",
    nameData := none, symbolData := none, decimalsData := none }

/-- C7 witness: spending the full allowance drops it to zero. -/
theorem C7_transferFrom_allowance_witness :
    val (get_allowance c7Result "D" "A") =
        val (get_allowance c7State "D" "A") - val (from_u64 60) ∧
      val (from_u64 60) ≤ val (get_allowance c7State "D" "A") :=
  C7_transferFrom_allowance c7State c7Result "A" "D" "B" (from_u64 60)
    (by decide) (by decide) (by decide)

/-- C8 counterexample: `increaseAllowance` with the empty spender address
succeeds and stores the allowance under (caller, ""); it performs no
empty-spender check at all. -/
theorem C8_empty_spender_ce :
    increaseAllowance emptyState "A" (some ("", from_u64 5)) =
      Res.ok { emptyState with allowances := [(("A", ""), from_u64 5)] } := by
  decide

/-- C8 amended: `increaseAllowance` performs no emptiness check on the
spender address: for every spender string, the empty one included, it
succeeds on well-formed arguments and sets the allowance of
(caller, spender) to the old value plus `amount`, clamped to the maximum
representable value on overflow. -/
theorem C8_increaseAllowance_amended (st : LState) (c sp : Addr)
    (amt : List Nat) (hWF : WF st) (hamt : valid32 amt) :
    ∃ st2, increaseAllowance st c (some (sp, amt)) = Res.ok st2 ∧
      val (get_allowance st2 c sp) =
        min (val (get_allowance st c sp) + val amt) (2 ^ 256 - 1) := by
  have hd : decodeAmount amt = some amt := by
    unfold decodeAmount
    rw [if_pos (le_of_eq hamt.1.symm), ← hamt.1, List.take_length]
  have hba : valid32 (get_allowance st c sp) := get_allowance_valid st c sp hWF
  cases hca : checked_add (get_allowance st c sp) amt with
  | none =>
    have hof : 2 ^ 256 ≤ val (get_allowance st c sp) + val amt :=
      (checked_add_none_iff _ _ hba.1 hamt.1).mp hca
    refine ⟨set_allowance st c sp max32, ?_, ?_⟩
    · simp only [increaseAllowance, hd, hca, Option.getD_none]
    · rw [get_allowance_set_allowance_self st c sp max32 (by decide)]
      have hmax : val max32 = 2 ^ 256 - 1 := by decide
      omega
  | some na =>
    obtain ⟨hnav, hnaok⟩ := checked_add_some_val _ _ _ hba.1 hamt.1 hca
    have hlt : val (get_allowance st c sp) + val amt < 2 ^ 256 := by
      by_contra hx
      push_neg at hx
      rw [(checked_add_none_iff _ _ hba.1 hamt.1).mpr hx] at hca
      exact Option.noConfusion hca
    refine ⟨set_allowance st c sp na, ?_, ?_⟩
    · simp only [increaseAllowance, hd, hca, Option.getD_some]
    · rw [get_allowance_set_allowance_self st c sp na hnaok]
      omega

/-- C8 witness: increasing the allowance of the empty spender from 0 by 5. -/
theorem C8_increaseAllowance_amended_witness :
    ∃ st2, increaseAllowance emptyState "A" (some ("", from_u64 5)) =
        Res.ok st2 ∧
      val (get_allowance st2 "A" "") =
        min (val (get_allowance emptyState "A" "") + val (from_u64 5))
          (2 ^ 256 - 1) :=
  C8_increaseAllowance_amended emptyState "A" "" (from_u64 5)
    (by decide) (by decide)

/-- C9 counterexample: the constructor does not reject an argument buffer
from which nothing can be decoded; it fills every metadata, supply, owner
and balance key with default values, starting from a store in which no key
was set. -/
theorem C9_constructor_defaults_ce :
    constructor emptyState "D" true none none none none =
      Res.ok (ctorState "D" none none none defaultSupply) ∧
    (ctorState "D" none none none defaultSupply).nameData =
      some "MassaToken" ∧
    emptyState.nameData = none :=
  ⟨by rfl, rfl, rfl⟩

/-- C9 amended: for every entry point other than the constructor, a
malformed argument buffer aborts the call before any state is touched (the
failure state is exactly the input state); the constructor instead
substitutes defaults ("MassaToken", "MT", 18 decimals, a supply of 10^18)
for undecodable arguments and proceeds to write storage. -/
theorem C9_malformed_args_amended :
    (∀ st c, transfer st c none = Res.err Err.badArgs st) ∧
    (∀ st c, transferFrom st c none = Res.err Err.badArgs st) ∧
    (∀ st c, increaseAllowance st c none = Res.err Err.badArgs st) ∧
    (∀ st c, decreaseAllowance st c none = Res.err Err.badArgs st) ∧
    (∀ st c, burn st c none = Res.err Err.badArgs st) ∧
    (∀ st c, burnFrom st c none = Res.err Err.badArgs st) ∧
    (∀ st c, setOwner st c none = Res.err Err.badArgs st) ∧
    (∀ st c, ∃ e, mint st c none = Res.err e st) ∧
    (∃ st2, constructor emptyState "D" true none none none none =
      Res.ok st2) := by
  refine ⟨fun st c => rfl, fun st c => rfl, fun st c => rfl, fun st c => rfl,
    fun st c => rfl, fun st c => rfl, fun st c => rfl, ?_,
    ⟨ctorState "D" none none none defaultSupply, by rfl⟩⟩
  intro st c
  cases ho : st.owner with
  | none => exact ⟨Err.noOwner, by simp only [mint, ho]⟩
  | some o =>
    by_cases hc : c ≠ o
    · exact ⟨Err.notOwner, by simp only [mint, ho, if_pos hc]⟩
    · exact ⟨Err.badArgs, by simp only [mint, ho, if_neg hc]⟩

/-! ## What a failing call has already written -/

theorem transfer_err_state (st : LState) (c : Addr)
    (a : Option (Addr × List Nat)) (e : Err) (st2 : LState)
    (h : transfer st c a = Res.err e st2) : st2 = st := by
  cases a with
  | none =>
    injection h with h1 h2
    exact h2.symm
  | some p =>
    obtain ⟨t, ab⟩ := p
    simp only [transfer] at h
    cases hd : decodeAmount ab with
    | none =>
      simp only [hd] at h
      injection h with h1 h2
      exact h2.symm
    | some amount =>
    simp only [hd] at h
    by_cases hct : c = t
    · rw [if_pos hct] at h
      injection h with h1 h2
      exact h2.symm
    rw [if_neg hct] at h
    by_cases hlt : ucmp (get_balance st c) amount = Ordering.lt
    · rw [if_pos hlt] at h
      injection h with h1 h2
      exact h2.symm
    rw [if_neg hlt] at h
    cases hca : checked_add (get_balance st t) amount with
    | none =>
      simp only [hca] at h
      injection h with h1 h2
      exact h2.symm
    | some nt =>
    simp only [hca] at h
    cases hcs : checked_sub (get_balance st c) amount with
    | none =>
      simp only [hcs] at h
      injection h with h1 h2
      exact h2.symm
    | some nf =>
    simp only [hcs] at h
    exact Res.noConfusion h

theorem transferFrom_err_state (st : LState) (c : Addr)
    (a : Option (Addr × Addr × List Nat)) (e : Err) (st2 : LState)
    (h : transferFrom st c a = Res.err e st2) : st2 = st := by
  cases a with
  | none =>
    injection h with h1 h2
    exact h2.symm
  | some p =>
    obtain ⟨ow, rc, ab⟩ := p
    simp only [transferFrom] at h
    cases hd : decodeAmount ab with
    | none =>
      simp only [hd] at h
      injection h with h1 h2
      exact h2.symm
    | some amount =>
    simp only [hd] at h
    by_cases hor : ow = rc
    · rw [if_pos hor] at h
      injection h with h1 h2
      exact h2.symm
    rw [if_neg hor] at h
    by_cases hal : ucmp (get_allowance st ow c) amount = Ordering.lt
    · rw [if_pos hal] at h
      injection h with h1 h2
      exact h2.symm
    rw [if_neg hal] at h
    by_cases hob : ucmp (get_balance st ow) amount = Ordering.lt
    · rw [if_pos hob] at h
      injection h with h1 h2
      exact h2.symm
    rw [if_neg hob] at h
    cases hca : checked_add (get_balance st rc) amount with
    | none =>
      simp only [hca] at h
      injection h with h1 h2
      exact h2.symm
    | some nr =>
    simp only [hca] at h
    cases hcs : checked_sub (get_balance st ow) amount with
    | none =>
      simp only [hcs] at h
      injection h with h1 h2
      exact h2.symm
    | some no =>
    simp only [hcs] at h
    cases hcal : checked_sub (get_allowance st ow c) amount with
    | none =>
      simp only [hcal] at h
      injection h with h1 h2
      exact h2.symm
    | some na =>
    simp only [hcal] at h
    exact Res.noConfusion h

theorem increaseAllowance_err_state (st : LState) (c : Addr)
    (a : Option (Addr × List Nat)) (e : Err) (st2 : LState)
    (h : increaseAllowance st c a = Res.err e st2) : st2 = st := by
  cases a with
  | none =>
    injection h with h1 h2
    exact h2.symm
  | some p =>
    obtain ⟨sp, ab⟩ := p
    simp only [increaseAllowance] at h
    cases hd : decodeAmount ab with
    | none =>
      simp only [hd] at h
      injection h with h1 h2
      exact h2.symm
    | some amount =>
    simp only [hd] at h
    exact Res.noConfusion h

theorem decreaseAllowance_err_state (st : LState) (c : Addr)
    (a : Option (Addr × List Nat)) (e : Err) (st2 : LState)
    (h : decreaseAllowance st c a = Res.err e st2) : st2 = st := by
  cases a with
  | none =>
    injection h with h1 h2
    exact h2.symm
  | some p =>
    obtain ⟨sp, ab⟩ := p
    simp only [decreaseAllowance] at h
    cases hd : decodeAmount ab with
    | none =>
      simp only [hd] at h
      injection h with h1 h2
      exact h2.symm
    | some amount =>
    simp only [hd] at h
    by_cases hgt : ucmp (get_allowance st c sp) amount = Ordering.gt
    · rw [if_pos hgt] at h
      cases hcs : checked_sub (get_allowance st c sp) amount with
      | none =>
        exfalso
        unfold checked_sub at hcs
        by_cases hlt : ucmp (get_allowance st c sp) amount = Ordering.lt
        · rw [hlt] at hgt
          exact Ordering.noConfusion hgt
        · rw [if_neg hlt] at hcs
          exact Option.noConfusion hcs
      | some v =>
        simp only [hcs] at h
        exact Res.noConfusion h
    · rw [if_neg hgt] at h
      exact Res.noConfusion h

theorem mint_err_frame (st : LState) (c : Addr)
    (a : Option (Addr × List Nat)) (e : Err) (st2 : LState)
    (h : mint st c a = Res.err e st2) :
    st2.balances = st.balances ∧ st2.allowances = st.allowances ∧
      st2.owner = st.owner := by
  simp only [mint] at h
  cases ho : st.owner with
  | none =>
    simp only [ho] at h
    injection h with h1 h2
    rw [← h2]
    exact ⟨rfl, rfl, ho⟩
  | some o =>
  simp only [ho] at h
  by_cases hc : c ≠ o
  · rw [if_pos hc] at h
    injection h with h1 h2
    rw [← h2]
    exact ⟨rfl, rfl, ho⟩
  rw [if_neg hc] at h
  cases a with
  | none =>
    injection h with h1 h2
    rw [← h2]
    exact ⟨rfl, rfl, ho⟩
  | some p =>
  obtain ⟨rc, ab⟩ := p
  simp only at h
  cases hd : decodeAmount ab with
  | none =>
    simp only [hd] at h
    injection h with h1 h2
    rw [← h2]
    exact ⟨rfl, rfl, ho⟩
  | some amount =>
  simp only [hd] at h
  cases hca : checked_add (get_total_supply st) amount with
  | none =>
    simp only [hca] at h
    injection h with h1 h2
    rw [← h2]
    exact ⟨rfl, rfl, ho⟩
  | some ns =>
  simp only [hca] at h
  cases hcb : checked_add (get_balance (set_total_supply st ns) rc) amount with
  | none =>
    simp only [hcb] at h
    injection h with h1 h2
    rw [← h2]
    exact ⟨rfl, rfl, ho⟩
  | some nb =>
  simp only [hcb] at h
  exact Res.noConfusion h

theorem burn_err_frame (st : LState) (c : Addr)
    (a : Option (List Nat)) (e : Err) (st2 : LState)
    (h : burn st c a = Res.err e st2) :
    st2.balances = st.balances ∧ st2.allowances = st.allowances ∧
      st2.owner = st.owner := by
  cases a with
  | none =>
    injection h with h1 h2
    rw [← h2]
    exact ⟨rfl, rfl, rfl⟩
  | some ab =>
  simp only [burn] at h
  cases hd : decodeAmount ab with
  | none =>
    simp only [hd] at h
    injection h with h1 h2
    rw [← h2]
    exact ⟨rfl, rfl, rfl⟩
  | some amount =>
  simp only [hd] at h
  cases hcs : checked_sub (get_total_supply st) amount with
  | none =>
    simp only [hcs] at h
    injection h with h1 h2
    rw [← h2]
    exact ⟨rfl, rfl, rfl⟩
  | some ns =>
  simp only [hcs] at h
  cases hcb : checked_sub (get_balance (set_total_supply st ns) c) amount with
  | none =>
    simp only [hcb] at h
    injection h with h1 h2
    rw [← h2]
    exact ⟨rfl, rfl, rfl⟩
  | some nb =>
  simp only [hcb] at h
  exact Res.noConfusion h

theorem burnFrom_err_frame (st : LState) (c : Addr)
    (a : Option (Addr × List Nat)) (e : Err) (st2 : LState)
    (h : burnFrom st c a = Res.err e st2) :
    st2.balances = st.balances ∧ st2.allowances = st.allowances ∧
      st2.owner = st.owner := by
  cases a with
  | none =>
    injection h with h1 h2
    rw [← h2]
    exact ⟨rfl, rfl, rfl⟩
  | some p =>
  obtain ⟨ow, ab⟩ := p
  simp only [burnFrom] at h
  cases hd : decodeAmount ab with
  | none =>
    simp only [hd] at h
    injection h with h1 h2
    rw [← h2]
    exact ⟨rfl, rfl, rfl⟩
  | some amount =>
  simp only [hd] at h
  by_cases hal : ucmp (get_allowance st ow c) amount = Ordering.lt
  · rw [if_pos hal] at h
    injection h with h1 h2
    rw [← h2]
    exact ⟨rfl, rfl, rfl⟩
  rw [if_neg hal] at h
  cases hcs : checked_sub (get_total_supply st) amount with
  | none =>
    simp only [hcs] at h
    injection h with h1 h2
    rw [← h2]
    exact ⟨rfl, rfl, rfl⟩
  | some ns =>
  simp only [hcs] at h
  cases hcb : checked_sub (get_balance (set_total_supply st ns) ow) amount with
  | none =>
    simp only [hcb] at h
    injection h with h1 h2
    rw [← h2]
    exact ⟨rfl, rfl, rfl⟩
  | some nb =>
  simp only [hcb] at h
  cases hcal : checked_sub (get_allowance st ow c) amount with
  | none =>
    exfalso
    unfold checked_sub at hcal
    rw [if_neg hal] at hcal
    exact Option.noConfusion hcal
  | some na =>
  simp only [hcal] at h
  exact Res.noConfusion h

/-- A freshly deployed ledger where D holds the whole supply of 100. -/
def burnCEState : LState := ctorState "D" none none none (from_u64 100)

/-- C2 counterexample: `burn`, called by an account with no balance,
fails its balance validation only after the decreased total supply has
already been written: the state carried at the failure point holds the
new supply 50 while the input state held 100. -/
theorem C2_burn_partial_write_ce :
    Reached burnCEState ∧
    burn burnCEState "A" (some (from_u64 50)) =
      Res.err Err.balanceUnderflow
        { burnCEState with supply := some (from_u64 50) } ∧
    val (get_total_supply burnCEState) = 100 ∧
    val (get_total_supply
      { burnCEState with supply := some (from_u64 50) }) = 50 := by
  refine ⟨Reached.base "D" true none none none (some (from_u64 100))
    burnCEState ?_ ?_, by decide, by decide, by decide⟩
  · intro bs hbs
    injection hbs with hbs
    subst hbs
    decide
  · decide

/-- C2 amended: in `transfer`, `transferFrom`, `increaseAllowance` and
`decreaseAllowance` every read needed to validate the call precedes every
write, so any failure leaves the state exactly as it was; in `mint`,
`burn` and `burnFrom`, however, the new total supply is written before
the recipient/caller/owner balance is read and validated, so a failure of
that later step leaves the supply already updated — only balances,
allowances and the owner are guaranteed untouched by a failure, and
rolling the supply write back is delegated to the host's abort
semantics. -/
theorem C2_write_after_validate_amended :
    (∀ st c a e st2, transfer st c a = Res.err e st2 → st2 = st) ∧
    (∀ st c a e st2, transferFrom st c a = Res.err e st2 → st2 = st) ∧
    (∀ st c a e st2, increaseAllowance st c a = Res.err e st2 → st2 = st) ∧
    (∀ st c a e st2, decreaseAllowance st c a = Res.err e st2 → st2 = st) ∧
    (∀ st c a e st2, mint st c a = Res.err e st2 →
      st2.balances = st.balances ∧ st2.allowances = st.allowances ∧
        st2.owner = st.owner) ∧
    (∀ st c a e st2, burn st c a = Res.err e st2 →
      st2.balances = st.balances ∧ st2.allowances = st.allowances ∧
        st2.owner = st.owner) ∧
    (∀ st c a e st2, burnFrom st c a = Res.err e st2 →
      st2.balances = st.balances ∧ st2.allowances = st.allowances ∧
        st2.owner = st.owner) :=
  ⟨transfer_err_state, transferFrom_err_state, increaseAllowance_err_state,
    decreaseAllowance_err_state, mint_err_frame, burn_err_frame,
    burnFrom_err_frame⟩

/-- True exactly for the result of a call that aborted at an `unwrap()`. -/
def isUnwrapErr : Res → Bool
  | Res.err Err.unwrapPanic _ => true
  | _ => false

theorem transfer_no_unwrap (st : LState) (c : Addr)
    (a : Option (Addr × List Nat)) :
    isUnwrapErr (transfer st c a) = false := by
  cases a with
  | none => rfl
  | some p =>
    obtain ⟨t, ab⟩ := p
    cases hd : decodeAmount ab with
    | none =>
      have he : transfer st c (some (t, ab)) = Res.err Err.badArgs st := by
        simp only [transfer, hd]
      rw [he]
      rfl
    | some amount =>
    by_cases hct : c = t
    · have he : transfer st c (some (t, ab)) = Res.err Err.selfTransfer st := by
        simp only [transfer, hd, if_pos hct]
      rw [he]
      rfl
    by_cases hlt : ucmp (get_balance st c) amount = Ordering.lt
    · have he : transfer st c (some (t, ab)) =
          Res.err Err.insufficientFunds st := by
        simp only [transfer, hd, if_neg hct, if_pos hlt]
      rw [he]
      rfl
    cases hca : checked_add (get_balance st t) amount with
    | none =>
      have he : transfer st c (some (t, ab)) = Res.err Err.overflow st := by
        simp only [transfer, hd, if_neg hct, if_neg hlt, hca]
      rw [he]
      rfl
    | some nt =>
    cases hcs : checked_sub (get_balance st c) amount with
    | none =>
      exfalso
      unfold checked_sub at hcs
      rw [if_neg hlt] at hcs
      exact Option.noConfusion hcs
    | some nf =>
      have he : transfer st c (some (t, ab)) =
          Res.ok (set_balance (set_balance st c nf) t nt) := by
        simp only [transfer, hd, if_neg hct, if_neg hlt, hca, hcs]
      rw [he]
      rfl

theorem transferFrom_no_unwrap (st : LState) (c : Addr)
    (a : Option (Addr × Addr × List Nat)) :
    isUnwrapErr (transferFrom st c a) = false := by
  cases a with
  | none => rfl
  | some p =>
    obtain ⟨ow, rc, ab⟩ := p
    cases hd : decodeAmount ab with
    | none =>
      have he : transferFrom st c (some (ow, rc, ab)) =
          Res.err Err.badArgs st := by
        simp only [transferFrom, hd]
      rw [he]
      rfl
    | some amount =>
    by_cases hor : ow = rc
    · have he : transferFrom st c (some (ow, rc, ab)) =
          Res.err Err.selfTransfer st := by
        simp only [transferFrom, hd, if_pos hor]
      rw [he]
      rfl
    by_cases hal : ucmp (get_allowance st ow c) amount = Ordering.lt
    · have he : transferFrom st c (some (ow, rc, ab)) =
          Res.err Err.insufficientAllowance st := by
        simp only [transferFrom, hd, if_neg hor, if_pos hal]
      rw [he]
      rfl
    by_cases hob : ucmp (get_balance st ow) amount = Ordering.lt
    · have he : transferFrom st c (some (ow, rc, ab)) =
          Res.err Err.insufficientFunds st := by
        simp only [transferFrom, hd, if_neg hor, if_neg hal, if_pos hob]
      rw [he]
      rfl
    cases hca : checked_add (get_balance st rc) amount with
    | none =>
      have he : transferFrom st c (some (ow, rc, ab)) =
          Res.err Err.overflow st := by
        simp only [transferFrom, hd, if_neg hor, if_neg hal, if_neg hob, hca]
      rw [he]
      rfl
    | some nr =>
    cases hcs : checked_sub (get_balance st ow) amount with
    | none =>
      exfalso
      unfold checked_sub at hcs
      rw [if_neg hob] at hcs
      exact Option.noConfusion hcs
    | some no =>
    cases hcal : checked_sub (get_allowance st ow c) amount with
    | none =>
      exfalso
      unfold checked_sub at hcal
      rw [if_neg hal] at hcal
      exact Option.noConfusion hcal
    | some na =>
      have he : transferFrom st c (some (ow, rc, ab)) =
          Res.ok (set_allowance (set_balance (set_balance st ow no)
            rc nr) ow c na) := by
        simp only [transferFrom, hd, if_neg hor, if_neg hal, if_neg hob,
          hca, hcs, hcal]
      rw [he]
      rfl

theorem burnFrom_no_unwrap (st : LState) (c : Addr)
    (a : Option (Addr × List Nat)) :
    isUnwrapErr (burnFrom st c a) = false := by
  cases a with
  | none => rfl
  | some p =>
    obtain ⟨ow, ab⟩ := p
    cases hd : decodeAmount ab with
    | none =>
      have he : burnFrom st c (some (ow, ab)) = Res.err Err.badArgs st := by
        simp only [burnFrom, hd]
      rw [he]
      rfl
    | some amount =>
    by_cases hal : ucmp (get_allowance st ow c) amount = Ordering.lt
    · have he : burnFrom st c (some (ow, ab)) =
          Res.err Err.insufficientAllowance st := by
        simp only [burnFrom, hd, if_pos hal]
      rw [he]
      rfl
    cases hcs : checked_sub (get_total_supply st) amount with
    | none =>
      have he : burnFrom st c (some (ow, ab)) =
          Res.err Err.supplyUnderflow st := by
        simp only [burnFrom, hd, if_neg hal, hcs]
      rw [he]
      rfl
    | some ns =>
    cases hcb : checked_sub (get_balance (set_total_supply st ns) ow)
        amount with
    | none =>
      have he : burnFrom st c (some (ow, ab)) =
          Res.err Err.balanceUnderflow (set_total_supply st ns) := by
        simp only [burnFrom, hd, if_neg hal, hcs, hcb]
      rw [he]
      rfl
    | some nb =>
    cases hcal : checked_sub (get_allowance st ow c) amount with
    | none =>
      exfalso
      unfold checked_sub at hcal
      rw [if_neg hal] at hcal
      exact Option.noConfusion hcal
    | some na =>
      have he : burnFrom st c (some (ow, ab)) =
          Res.ok (set_allowance (set_balance (set_total_supply st ns)
            ow nb) ow c na) := by
        simp only [burnFrom, hd, if_neg hal, hcs, hcb, hcal]
      rw [he]
      rfl

/-- C10: in `transfer`, `transferFrom` and `burnFrom`, every `unwrap()`
applied to a `checked_sub` result is unreachable as a panic: the
preceding comparison assertions guarantee each such `checked_sub` returns
a value, so no call ever aborts at those sites. -/
theorem C10_no_unwrap_panic (st : LState) (c : Addr)
    (aT : Option (Addr × List Nat)) (aTF : Option (Addr × Addr × List Nat))
    (aBF : Option (Addr × List Nat)) :
    isUnwrapErr (transfer st c aT) = false ∧
    isUnwrapErr (transferFrom st c aTF) = false ∧
    isUnwrapErr (burnFrom st c aBF) = false :=
  ⟨transfer_no_unwrap st c aT, transferFrom_no_unwrap st c aTF,
    burnFrom_no_unwrap st c aBF⟩

end MRC20
